import Mathlib

set_option maxRecDepth 8000

/-! Verification of the StudyMe study-pack generator (`src/app.py`).

Shallow embedding conventions:
* Python strings are `List Char`, raw byte streams are `List Nat`.
* An uncaught Python exception is `Option.none`; a normal return is `some`.
* The fuel-indexed helpers (`replaceAllF`, `countSubF`, `utf8F`) are always
  run with fuel at least the length of their input, which makes the
  recursion structural while computing the same result as the Python
  left-to-right scans they model. -/

/-- The ASCII whitespace characters stripped by Python `str.strip()`
(`string.whitespace`; the inputs in this development are ASCII). -/
def isSpaceChar (c : Char) : Bool :=
  c == ' ' || c == '\t' || c == '\n' || c == '\r' || c == '\x0b' || c == '\x0c'

/-- Remove leading whitespace. -/
def dropSpaces : List Char → List Char
  | [] => []
  | c :: t => if isSpaceChar c then dropSpaces t else c :: t

/-- Python `s.strip()`: remove leading and trailing whitespace. -/
def strip (s : List Char) : List Char :=
  (dropSpaces (dropSpaces s).reverse).reverse

/-- `beginsWith p s`: does `s` start with the pattern `p`? -/
def beginsWith : List Char → List Char → Bool
  | [], _ => true
  | _ :: _, [] => false
  | a :: p, c :: s => a == c && beginsWith p s

/-- Python `p in s`: substring containment, scanning left to right. -/
def containsSub (p : List Char) : List Char → Bool
  | [] => p.isEmpty
  | c :: t => beginsWith p (c :: t) || containsSub p t

/-- Python `s.split(p, 1)` for a nonempty pattern `p` that occurs in `s`:
the text before the first occurrence paired with the text after it.
(When `p` does not occur, the scan returns `(s, [])`; all uses in the
source are guarded by a containment check first.) -/
def splitFirst (p : List Char) : List Char → List Char × List Char
  | [] => ([], [])
  | c :: t =>
    if beginsWith p (c :: t) then ([], List.drop (p.length - 1) t)
    else
      let r := splitFirst p t
      (c :: r.1, r.2)

/-- Fuel-indexed body of Python `s.replace(p, q)`: replace every
occurrence of `p` left to right, never rescanning replacement text. -/
def replaceAllF (p q : List Char) : Nat → List Char → List Char
  | 0, s => s
  | _ + 1, [] => []
  | f + 1, c :: t =>
    if beginsWith p (c :: t) then q ++ replaceAllF p q f (List.drop (p.length - 1) t)
    else c :: replaceAllF p q f t

/-- Python `s.replace(p, q)` (for nonempty `p`). -/
def replaceAll (p q s : List Char) : List Char := replaceAllF p q s.length s

/-- Fuel-indexed body of Python `s.count(p)` (non-overlapping count). -/
def countSubF (p : List Char) : Nat → List Char → Nat
  | 0, _ => 0
  | _ + 1, [] => 0
  | f + 1, c :: t =>
    if beginsWith p (c :: t) then 1 + countSubF p f (List.drop (p.length - 1) t)
    else countSubF p f t

/-- Python `s.count(p)` for nonempty `p`. -/
def countSub (p s : List Char) : Nat := countSubF p s.length s

/-- Index of the first occurrence of `p` in `s` (`s.length` if absent). -/
def firstIdx (p s : List Char) : Nat := (splitFirst p s).1.length

/-- Python `name.endswith(suffix)`. -/
def endsWithSub (p s : List Char) : Bool := beginsWith p.reverse s.reverse

/-- The character of `s` at index `i`, if any. -/
def charAt (s : List Char) (i : Nat) : Option Char := (s.drop i).head?

/-- `sliceEq s j u`: the pattern `u` occurs in `s` at index `j`. -/
def sliceEq (s : List Char) (j : Nat) (u : List Char) : Prop :=
  ∀ k, k < u.length → charAt s (j + k) = charAt u k

instance (s : List Char) (j : Nat) (u : List Char) : Decidable (sliceEq s j u) :=
  Nat.decidableBallLT u.length fun k _ => charAt s (j + k) = charAt u k

/- ------------------------------------------------------------------ -/
/- The four canonical heading markers (the protocol tokens of the
   prompt, src/app.py lines 68, 77, 82, 89) and the title-case variants
   rewritten by the normalization step (line 115). -/

def mT : List Char := "PRAACHI-GUIDE TEXTBOOK".data

def mF : List Char := "FLASHCARDS".data

def mQ : List Char := "QUESTION BANK".data

def mE : List Char := "EXAM TEMPLATE".data

def vF : List Char := "Flashcards".data

def vQ : List Char := "Question Bank".data

def vE : List Char := "Exam Template".data

/-- src/app.py line 115: normalize headings to make splitting easier. -/
def normalizeHeadings (s : List Char) : List Char :=
  replaceAll vE mE (replaceAll vQ mQ (replaceAll vF mF s))

/-- The four named output sections returned by `generate_all`. -/
structure StudyPack where
  textbook : List Char
  flashcards : List Char
  question_bank : List Char
  exam : List Char
  deriving DecidableEq

/-- src/app.py lines 109-140: split the model output by the known
markers, falling back gracefully when a marker is missing. -/
def segmentResponse (output : List Char) : StudyPack :=
  let normalized := normalizeHeadings output
  let tr : List Char × List Char :=
    if containsSub mF normalized then
      let parts := splitFirst mF normalized
      (strip (replaceAll mT [] parts.1), parts.2)
    else (strip normalized, [])
  let fr : List Char × List Char :=
    if containsSub mQ tr.2 then
      let parts2 := splitFirst mQ tr.2
      (strip parts2.1, parts2.2)
    else (strip tr.2, [])
  let qe : List Char × List Char :=
    if containsSub mE fr.2 then
      let parts3 := splitFirst mE fr.2
      (strip parts3.1, strip parts3.2)
    else (strip fr.2, [])
  ⟨tr.1, fr.1, qe.1, qe.2⟩

/- ------------------------------------------------------------------ -/
/- Document model and the text extractors (src/app.py lines 15-39). -/

/-- A parse of an uploaded file, as seen through the external parser
libraries: each `Option` at the outer level is `none` when the library
raises on that file, and for PDF pages `none` models a page whose
`extract_text()` returns `None`.  `readBytes = none` models a file
object whose `read()` raises (caught by the fallback's `except`). -/
structure FileModel where
  name : List Char
  pdfPages : Option (List (Option (List Char)))
  docxParas : Option (List (List Char))
  pptxSlides : Option (List (List (Option (List Char))))
  readBytes : Option (List Nat)
  deriving DecidableEq

/-- Python `"\n".join`. -/
def joinNL : List (List Char) → List Char
  | [] => []
  | [x] => x
  | x :: xs => x ++ '\n' :: joinNL xs

/-- Is `b` a UTF-8 continuation byte (0x80-0xBF)? -/
def contB (b : Nat) : Bool := 128 ≤ b && b ≤ 191

/-- Fuel-indexed UTF-8 decoder with Python's `errors="ignore"` handling:
invalid bytes are skipped (one byte at a time, which yields the same
output as CPython's maximal-subpart skipping). -/
def utf8F : Nat → List Nat → List Char
  | 0, _ => []
  | _ + 1, [] => []
  | f + 1, b1 :: rest =>
    if b1 < 128 then Char.ofNat b1 :: utf8F f rest
    else
      match rest with
      | [] => []
      | b2 :: rest2 =>
        if 194 ≤ b1 && b1 ≤ 223 && contB b2 then
          Char.ofNat ((b1 - 192) * 64 + (b2 - 128)) :: utf8F f rest2
        else
          match rest2 with
          | [] => utf8F f rest
          | b3 :: rest3 =>
            if ((b1 == 224 && 160 ≤ b2 && b2 ≤ 191) ||
                ((225 ≤ b1 && b1 ≤ 236 || b1 == 238 || b1 == 239) && contB b2) ||
                (b1 == 237 && 128 ≤ b2 && b2 ≤ 159)) && contB b3 then
              Char.ofNat ((b1 - 224) * 4096 + (b2 - 128) * 64 + (b3 - 128)) :: utf8F f rest3
            else
              match rest3 with
              | [] => utf8F f rest
              | b4 :: rest4 =>
                if ((b1 == 240 && 144 ≤ b2 && b2 ≤ 191) ||
                    (241 ≤ b1 && b1 ≤ 243 && contB b2) ||
                    (b1 == 244 && 128 ≤ b2 && b2 ≤ 143)) && contB b3 && contB b4 then
                  Char.ofNat ((b1 - 240) * 262144 + (b2 - 128) * 4096 +
                    (b3 - 128) * 64 + (b4 - 128)) :: utf8F f rest4
                else utf8F f rest

/-- Python `bytes.decode("utf-8", errors="ignore")` (line 37). -/
def utf8DecodeIgnore (bs : List Nat) : List Char := utf8F bs.length bs

/-- Fuel-indexed UTF-8 decoder emitting U+FFFD at invalid input. -/
def utf8ReplF : Nat → List Nat → List Char
  | 0, _ => []
  | _ + 1, [] => []
  | f + 1, b1 :: rest =>
    if b1 < 128 then Char.ofNat b1 :: utf8ReplF f rest
    else
      match rest with
      | [] => ['�']
      | b2 :: rest2 =>
        if 194 ≤ b1 && b1 ≤ 223 && contB b2 then
          Char.ofNat ((b1 - 192) * 64 + (b2 - 128)) :: utf8ReplF f rest2
        else
          match rest2 with
          | [] => '�' :: utf8ReplF f rest
          | b3 :: rest3 =>
            if ((b1 == 224 && 160 ≤ b2 && b2 ≤ 191) ||
                ((225 ≤ b1 && b1 ≤ 236 || b1 == 238 || b1 == 239) && contB b2) ||
                (b1 == 237 && 128 ≤ b2 && b2 ≤ 159)) && contB b3 then
              Char.ofNat ((b1 - 224) * 4096 + (b2 - 128) * 64 + (b3 - 128)) :: utf8ReplF f rest3
            else
              match rest3 with
              | [] => '�' :: utf8ReplF f rest
              | b4 :: rest4 =>
                if ((b1 == 240 && 144 ≤ b2 && b2 ≤ 191) ||
                    (241 ≤ b1 && b1 ≤ 243 && contB b2) ||
                    (b1 == 244 && 128 ≤ b2 && b2 ≤ 143)) && contB b3 && contB b4 then
                  Char.ofNat ((b1 - 240) * 262144 + (b2 - 128) * 4096 +
                    (b3 - 128) * 64 + (b4 - 128)) :: utf8ReplF f rest4
                else '�' :: utf8ReplF f rest

/-- Modelled from the spec: "decode the raw bytes as UTF-8, replacing
invalid byte sequences rather than failing" — a UTF-8 decode that emits
the replacement character U+FFFD where the byte stream is ill-formed
(the equivalent of Python's `errors="replace"`).  Used only to compare
the spec's stated decoding policy with the decoding the code performs. -/
def specUtf8Replace (bs : List Nat) : List Char := utf8ReplF bs.length bs

def pdfSuffix : List Char := ".pdf".data

def docxSuffix : List Char := ".docx".data

def pptxSuffix : List Char := ".pptx".data

/-- src/app.py lines 18-20: PDF branch.  A page with no extractable text
contributes `""`; a `PdfReader` failure raises out of the function. -/
def pdf_extract (f : FileModel) : Option (List Char) :=
  match f.pdfPages with
  | none => none
  | some pages => some (joinNL (pages.map fun p => p.getD []))

/-- src/app.py lines 22-24: DOCX branch. -/
def docx_extract (f : FileModel) : Option (List Char) :=
  match f.docxParas with
  | none => none
  | some ps => some (joinNL ps)

/-- src/app.py lines 26-33: PPTX branch (shapes without a `text`
capability are skipped). -/
def pptx_extract (f : FileModel) : Option (List Char) :=
  match f.pptxSlides with
  | none => none
  | some slides => some (joinNL (slides.map (fun sl => sl.filterMap id)).flatten)

/-- src/app.py lines 35-39: plain-text fallback, with its `try/except`
returning `""` when reading raises; the decode itself never raises. -/
def fallback_extract (f : FileModel) : Option (List Char) :=
  some (match f.readBytes with
    | none => []
    | some bs => utf8DecodeIgnore bs)

/-- src/app.py lines 15-39: `extract_text`, dispatching on the filename
suffix exactly as the chain of `name.endswith(...)` checks does. -/
def extract_text (f : FileModel) : Option (List Char) :=
  if endsWithSub pdfSuffix f.name then pdf_extract f
  else if endsWithSub docxSuffix f.name then docx_extract f
  else if endsWithSub pptxSuffix f.name then pptx_extract f
  else fallback_extract f

/-- The extraction loop of `generate_all` (lines 56-58): the first
uncaught extractor exception aborts the whole batch. -/
def extractAll : List FileModel → Option (List (List Char))
  | [] => some []
  | f :: fs =>
    match extract_text f with
    | none => none
    | some t =>
      match extractAll fs with
      | none => none
      | some ts => some (t :: ts)

def nl2 : List Char := ['\n', '\n']

/-- src/app.py lines 56-58: `full_corpus += extract_text(f) + "\n\n"`. -/
def full_corpus (texts : List (List Char)) : List Char :=
  texts.foldl (fun acc t => acc ++ t ++ nl2) []

/-- src/app.py line 52. -/
def emptyFilesMsg : List Char :=
  "Please upload at least one syllabus / slide / PDF to generate a study pack.".data

/-- src/app.py lines 60-97: the generation prompt (the f-string with its
two interpolation points replaced by concatenation). -/
def buildPrompt (subject exam_instructions corpus : List Char) : List Char :=
  "\nYou are an AI tutor creating a full study system for the subject: ".data ++
  subject ++
  ".\n\nHere is the course material (syllabi, slides, notes, etc.):\n".data ++
  corpus ++
  "\n\nPlease generate ALL of the following in one message, separated clearly with headings:\n\n1. PRAACHI-GUIDE TEXTBOOK:\n- Written in Praachi’s casual academic voice:\n  - clear, simple explanations\n  - conversational but not sloppy\n  - uses intuition and examples\n  - points out common mistakes\n- Organized into sections/chapters\n- Include short knowledge checks every few paragraphs.\n\n2. FLASHCARDS:\nProvide 15–25 flashcards in this exact format:\nQ: <front of card>\nA: <back of card>\n\n3. QUESTION BANK:\nProvide 10 multiple-choice questions + 10 short-answer questions.\nFor each MCQ, include:\n- The correct answer\n- Why each wrong option is wrong\n- A short reference label like [See: Topic X in Textbook]\n\n4. EXAM TEMPLATE:\nGenerate an exam using these optional instructions:\n\"\"\"".data ++
  exam_instructions ++
  "\"\"\"\n\nInclude:\n- 10 multiple-choice questions\n- 5 short-answer questions\n- 1 longer applied / case-style question.\n".data

/-- src/app.py lines 45-140: `generate_all`.  The completion gateway is
passed in as the function `gw` from prompt to model output; the result
is `none` when an extractor exception propagates. -/
def generate_all (files : List FileModel) (subject_name exam_instructions : List Char)
    (gw : List Char → List Char) : Option StudyPack :=
  let subject := if subject_name.isEmpty then "My Course".data else subject_name
  if files.isEmpty then some ⟨emptyFilesMsg, [], [], []⟩
  else
    match extractAll files with
    | none => none
    | some texts =>
      some (segmentResponse (gw (buildPrompt subject exam_instructions (full_corpus texts))))

/-- src/app.py line 148. -/
def gradeAnswersMsg : List Char :=
  "Please paste your exam answers before submitting.".data

/-- src/app.py lines 150-164: the grading prompt. -/
def gradePrompt (exam_text user_answers : List Char) : List Char :=
  "\nYou are grading the following exam.\n\nExam text:\n".data ++
  exam_text ++
  "\n\nStudent answers:\n".data ++
  user_answers ++
  "\n\nPlease give:\n1. A score out of 100.\n2. What they understood well.\n3. What they misunderstood.\n4. Specific topics and textbook sections they should review (refer to themes, not exact page numbers).\n".data

/-- src/app.py lines 146-171: `grade_exam`. -/
def grade_exam (user_answers exam_text : List Char) (gw : List Char → List Char) : List Char :=
  if user_answers.isEmpty then gradeAnswersMsg
  else gw (gradePrompt exam_text user_answers)

/- ------------------------------------------------------------------ -/
/- Spec-side definitions used to state the claims. -/

def sep1 : List Char := ['\n']

/-- The four fields of a pack concatenated in order, re-inserting a
single separator between consecutive fields. -/
def joinFields (pk : StudyPack) : List Char :=
  pk.textbook ++ sep1 ++ pk.flashcards ++ sep1 ++ pk.question_bank ++ sep1 ++ pk.exam

/-- Each of the four heading markers occurs in `r` exactly once, and in
the canonical order. -/
def markersOnceInOrder (r : List Char) : Prop :=
  countSub mT r = 1 ∧ countSub mF r = 1 ∧ countSub mQ r = 1 ∧ countSub mE r = 1 ∧
  firstIdx mT r < firstIdx mF r ∧ firstIdx mF r < firstIdx mQ r ∧
  firstIdx mQ r < firstIdx mE r

instance (r : List Char) : Decidable (markersOnceInOrder r) := by
  unfold markersOnceInOrder; infer_instance

/-- Modelled from the spec: the trimmed raw response with the four marker
tokens and the whitespace surrounding each section removed — the content
before `FLASHCARDS` (minus the `PRAACHI-GUIDE TEXTBOOK` token), then the
three later section bodies, each trimmed, joined with single
separators.  This is the reconstruction target of the identity law. -/
def specReassembly (r : List Char) : List Char :=
  let p1 := splitFirst mT r
  let p2 := splitFirst mF p1.2
  let p3 := splitFirst mQ p2.2
  let p4 := splitFirst mE p3.2
  strip (p1.1 ++ p2.1) ++ sep1 ++ strip p3.1 ++ sep1 ++ strip p4.1 ++ sep1 ++ strip p4.2

/- ------------------------------------------------------------------ -/
/- Concrete inputs used in the witnesses and counterexamples. -/

/-- The worked example of the spec's testable properties. -/
def c2Raw : List Char :=
  "PRAACHI-GUIDE TEXTBOOK:\nHello\nFLASHCARDS\nQ: x\nA: y\nQUESTION BANK\nMCQ1\nEXAM TEMPLATE\nFinal".data

/-- A response whose four canonical markers occur once each and in order,
but whose textbook prose mentions the word "Flashcards". -/
def c1CexRaw : List Char :=
  "PRAACHI-GUIDE TEXTBOOK\nHello see Flashcards here\nFLASHCARDS\nQ: x\nQUESTION BANK\nMCQ1\nEXAM TEMPLATE\nFinal".data

/-- A response whose pre-marker text holds one `PRAACHI-GUIDE TEXTBOOK`
occurrence whose removal splices its flanks into a fresh occurrence. -/
def c10CexRaw : List Char :=
  "PRAACHI-GUIPRAACHI-GUIDE TEXTBOOKDE TEXTBOOKFLASHCARDStail".data

/-- A `.pdf` upload that `PdfReader` cannot parse. -/
def fBadPdf : FileModel := ⟨"notes.pdf".data, none, none, none, some [104, 105]⟩

/-- A `.docx` upload that `docx.Document` cannot parse. -/
def fBadDocx : FileModel := ⟨"notes.docx".data, none, none, none, some [104, 105]⟩

/-- A `.pptx` upload that `Presentation` cannot parse. -/
def fBadPptx : FileModel := ⟨"deck.pptx".data, none, none, none, some [104, 105]⟩

/-- An upload with an unrecognized extension whose `read()` raises. -/
def fNoRead : FileModel := ⟨"notes.txt".data, none, none, none, none⟩

/-- An upload named with an upper-case `.PDF` extension, readable both as
a PDF and as raw bytes (the ASCII of "plain"). -/
def fUpperPdf : FileModel :=
  ⟨"A.PDF".data, some [some "PDFTEXT".data], none, none, some [112, 108, 97, 105, 110]⟩

/-- An upload with an unrecognized extension whose bytes are `A`, an
invalid byte 0xFF, then `B`. -/
def fC6 : FileModel := ⟨"notes.txt".data, none, none, none, some [65, 255, 66]⟩

/- ------------------------------------------------------------------ -/
/- Lemmas about the string scanning primitives. -/

theorem begins_iff (p s : List Char) : beginsWith p s = true ↔ ∃ r, s = p ++ r := by
  induction p generalizing s with
  | nil => simp [beginsWith]
  | cons a p ih =>
    cases s with
    | nil => simp [beginsWith]
    | cons c t =>
      simp only [beginsWith, Bool.and_eq_true, beq_iff_eq, ih, List.cons_append,
        List.cons.injEq]
      constructor
      · rintro ⟨h1, r, h2⟩; exact ⟨r, h1.symm, h2⟩
      · rintro ⟨r, h1, h2⟩; exact ⟨h1.symm, r, h2⟩

theorem begins_of_take (p s : List Char) (h : List.take p.length s = p) :
    beginsWith p s = true :=
  (begins_iff p s).mpr ⟨List.drop p.length s, by
    conv_lhs => rw [← List.take_append_drop p.length s]
    rw [h]⟩

theorem begins_take (p s : List Char) (h : beginsWith p s = true) :
    List.take p.length s = p := by
  obtain ⟨r, rfl⟩ := (begins_iff p s).mp h
  exact List.take_left p r

theorem begins_refl_append (p y : List Char) : beginsWith p (p ++ y) = true :=
  begins_of_take p (p ++ y) (List.take_left p y)

theorem contains_of_begins (p s : List Char) (hp : p ≠ []) (h : beginsWith p s = true) :
    containsSub p s = true := by
  cases s with
  | nil =>
    cases p with
    | nil => exact absurd rfl hp
    | cons a t => simp [beginsWith] at h
  | cons c t => simp [containsSub, h]

theorem contains_append_right (p x y : List Char) (h : containsSub p y = true) :
    containsSub p (x ++ y) = true := by
  induction x with
  | nil => simpa
  | cons c t ih =>
    simp only [List.cons_append, containsSub, Bool.or_eq_true]
    exact Or.inr ih

theorem contains_decomp (p x y : List Char) (hp : p ≠ []) :
    containsSub p (x ++ p ++ y) = true := by
  rw [List.append_assoc]
  exact contains_append_right p x (p ++ y)
    (contains_of_begins p (p ++ y) hp (begins_refl_append p y))

theorem take_agree (p x y : List Char) (m : Nat) (hm : m ≤ x.length + (p.length - 1)) :
    List.take m (x ++ (p ++ y)) = List.take m (x ++ List.take (p.length - 1) p) := by
  have h1 : List.take m (x ++ (p ++ y)) =
      List.take m x ++ List.take (m - x.length) (p ++ y) :=
    List.take_append_eq_append_take
  have h2 : List.take m (x ++ List.take (p.length - 1) p) =
      List.take m x ++ List.take (m - x.length) (List.take (p.length - 1) p) :=
    List.take_append_eq_append_take
  rw [h1, h2]
  congr 1
  have hk : m - x.length ≤ p.length - 1 := by omega
  calc List.take (m - x.length) (p ++ y)
      = List.take (m - x.length) p ++ List.take (m - x.length - p.length) y :=
        List.take_append_eq_append_take
    _ = List.take (m - x.length) p := by
        rw [show m - x.length - p.length = 0 by omega]; simp
    _ = List.take (min (m - x.length) (p.length - 1)) p := by rw [min_eq_left hk]
    _ = List.take (m - x.length) (List.take (p.length - 1) p) :=
        (List.take_take (m - x.length) (p.length - 1) p).symm

theorem begins_cross (p x y : List Char) (hp : p ≠ []) (hx : x ≠ [])
    (hb : beginsWith p (x ++ (p ++ y)) = true) :
    beginsWith p (x ++ List.take (p.length - 1) p) = true := by
  apply begins_of_take
  have hx1 : 0 < x.length := List.length_pos.mpr hx
  have hp1 : 0 < p.length := List.length_pos.mpr hp
  rw [← take_agree p x y p.length (by omega)]
  exact begins_take p (x ++ (p ++ y)) hb

theorem splitFirst_decomp (p x y : List Char) (hp : p ≠ [])
    (hx : containsSub p (x ++ List.take (p.length - 1) p) = false) :
    splitFirst p (x ++ (p ++ y)) = (x, y) := by
  induction x with
  | nil =>
    obtain ⟨a, p', rfl⟩ : ∃ a p', p = a :: p' := by
      cases p with
      | nil => exact absurd rfl hp
      | cons a p' => exact ⟨a, p', rfl⟩
    have hb : beginsWith (a :: p') ((a :: p') ++ y) = true := begins_refl_append _ y
    simp only [List.nil_append, List.cons_append] at hb ⊢
    simp only [splitFirst, hb, if_true]
    simp [List.drop_left p' y]
  | cons c x' ih =>
    have hx' : containsSub p (x' ++ List.take (p.length - 1) p) = false := by
      simp only [List.cons_append, containsSub, Bool.or_eq_false_iff] at hx
      exact hx.2
    have hbF : beginsWith p ((c :: x') ++ (p ++ y)) = false := by
      by_contra hcon
      rw [Bool.not_eq_false] at hcon
      have h3 := contains_of_begins p _ hp (begins_cross p (c :: x') y hp (by simp) hcon)
      rw [h3] at hx
      exact Bool.noConfusion hx
    simp only [List.cons_append] at hbF ⊢
    simp only [splitFirst, hbF, Bool.false_eq_true, if_false]
    rw [ih hx']

theorem replaceAllF_fuel (p q : List Char) :
    ∀ (f : Nat) (s : List Char) (g : Nat), s.length ≤ f → s.length ≤ g →
      replaceAllF p q f s = replaceAllF p q g s := by
  intro f
  induction f with
  | zero =>
    intro s g h1 _
    rw [List.length_eq_zero.mp (Nat.le_zero.mp h1)]
    cases g <;> simp [replaceAllF]
  | succ f ih =>
    intro s g h1 h2
    cases s with
    | nil => cases g <;> simp [replaceAllF]
    | cons c t =>
      cases g with
      | zero => simp at h2
      | succ g' =>
        simp only [List.length_cons] at h1 h2
        simp only [replaceAllF]
        by_cases hb : beginsWith p (c :: t) = true
        · simp only [hb, if_true]
          congr 1
          exact ih _ g' (by simp [List.length_drop]; omega) (by simp [List.length_drop]; omega)
        · simp only [Bool.not_eq_true] at hb
          simp only [hb, Bool.false_eq_true, if_false]
          congr 1
          exact ih t g' (by omega) (by omega)

theorem replaceAll_cons_pos (p q : List Char) (c : Char) (t : List Char)
    (h : beginsWith p (c :: t) = true) :
    replaceAll p q (c :: t) = q ++ replaceAll p q (List.drop (p.length - 1) t) := by
  simp only [replaceAll, List.length_cons, replaceAllF, h, if_true]
  congr 1
  exact replaceAllF_fuel p q t.length _ _ (by simp [List.length_drop]) (Nat.le_refl _)

theorem replaceAll_cons_neg (p q : List Char) (c : Char) (t : List Char)
    (h : beginsWith p (c :: t) = false) :
    replaceAll p q (c :: t) = c :: replaceAll p q t := by
  simp only [replaceAll, List.length_cons, replaceAllF, h, Bool.false_eq_true, if_false]

theorem replaceAll_not_contains (p q s : List Char) (h : containsSub p s = false) :
    replaceAll p q s = s := by
  induction s with
  | nil => rfl
  | cons c t ih =>
    simp only [containsSub, Bool.or_eq_false_iff] at h
    rw [replaceAll_cons_neg p q c t h.1, ih h.2]

theorem replaceAll_decomp (p q x y : List Char) (hp : p ≠ [])
    (hx : containsSub p (x ++ List.take (p.length - 1) p) = false) :
    replaceAll p q (x ++ (p ++ y)) = x ++ q ++ replaceAll p q y := by
  induction x with
  | nil =>
    obtain ⟨a, p', rfl⟩ : ∃ a p', p = a :: p' := by
      cases p with
      | nil => exact absurd rfl hp
      | cons a p' => exact ⟨a, p', rfl⟩
    have hb : beginsWith (a :: p') ((a :: p') ++ y) = true := begins_refl_append _ y
    simp only [List.nil_append, List.cons_append] at hb ⊢
    rw [replaceAll_cons_pos _ q _ _ hb]
    simp [List.drop_left p' y]
  | cons c x' ih =>
    have hx' : containsSub p (x' ++ List.take (p.length - 1) p) = false := by
      simp only [List.cons_append, containsSub, Bool.or_eq_false_iff] at hx
      exact hx.2
    have hbF : beginsWith p ((c :: x') ++ (p ++ y)) = false := by
      by_contra hcon
      rw [Bool.not_eq_false] at hcon
      have h3 := contains_of_begins p _ hp (begins_cross p (c :: x') y hp (by simp) hcon)
      rw [h3] at hx
      exact Bool.noConfusion hx
    simp only [List.cons_append] at hbF ⊢
    rw [replaceAll_cons_neg p q c _ hbF, ih hx']

/- ------------------------------------------------------------------ -/
/- Claim theorems. -/

/-- C2 counterexample: on the spec's worked input the segmenter does not
return `textbook = "Hello"` — the colon that follows the
`PRAACHI-GUIDE TEXTBOOK` token is not part of the removed token, so it
survives into the textbook field together with the following newline. -/
theorem spec_example_segmentation_cex :
    segmentResponse c2Raw ≠
      ⟨"Hello".data, "Q: x\nA: y".data, "MCQ1".data, "Final".data⟩ := by
  decide

/-- C2 (amended): on the input
`"PRAACHI-GUIDE TEXTBOOK:\nHello\nFLASHCARDS\nQ: x\nA: y\nQUESTION BANK\nMCQ1\nEXAM TEMPLATE\nFinal"`
segmentation returns `textbook = ":\nHello"` (the stray colon and
newline are kept), `flashcards = "Q: x\nA: y"`,
`questionBank = "MCQ1"`, `exam = "Final"`. -/
theorem spec_example_segmentation_actual :
    segmentResponse c2Raw =
      ⟨":\nHello".data, "Q: x\nA: y".data, "MCQ1".data, "Final".data⟩ := by
  decide

/-- C7: for an empty document list, `generate_all` returns the fixed
empty-input message pack, whatever the subject, the instructions and the
completion gateway — in particular the gateway is never consulted. -/
theorem empty_files_short_circuit (subject_name exam_instructions : List Char)
    (gw : List Char → List Char) :
    generate_all [] subject_name exam_instructions gw =
      some ⟨emptyFilesMsg, [], [], []⟩ := rfl

/-- C8: the corpus builder is order-preserving and separator-uniform —
the corpus is exactly the documents' extracted texts in upload order,
each followed by one `"\n\n"` separator, also when a text is empty. -/
theorem corpus_order_and_separators (texts : List (List Char)) :
    full_corpus texts = (texts.map fun t => t ++ nl2).flatten := by
  suffices h : ∀ acc : List Char,
      texts.foldl (fun acc t => acc ++ t ++ nl2) acc =
        acc ++ (texts.map fun t => t ++ nl2).flatten by
    simpa [full_corpus] using h []
  induction texts with
  | nil => intro acc; simp
  | cons t ts ih =>
    intro acc
    rw [List.foldl_cons, ih]
    simp [List.append_assoc]

/-- C9: with empty learner answers, `grade_exam` returns the fixed
instructional message for every exam text, and its result does not
depend on the completion gateway (the gateway is never invoked). -/
theorem grade_exam_empty_answers_short_circuit (exam_text : List Char)
    (gw gw' : List Char → List Char) :
    grade_exam [] exam_text gw = gradeAnswersMsg ∧
    grade_exam [] exam_text gw = grade_exam [] exam_text gw' := ⟨rfl, rfl⟩

/-- C1 counterexample: a raw response in which each of the four heading
markers occurs exactly once and in order, yet concatenating the four
output fields does not reproduce the response with only the markers and
surrounding whitespace removed: heading normalization first rewrites the
prose word "Flashcards" into the marker token, so the split lands on the
prose occurrence, the prose is altered, and the real marker token
survives inside the flashcards field. -/
theorem segmentation_reconstruction_cex :
    markersOnceInOrder c1CexRaw ∧
    joinFields (segmentResponse c1CexRaw) ≠ specReassembly c1CexRaw := by
  exact ⟨by decide, by decide⟩

/-- C1 (amended): the reconstruction law holds for every raw response
that heading normalization leaves unchanged and that decomposes around
the four markers, each occurring once and in order, with no marker
occurrence inside the surrounding section bodies: the four fields joined
with single separators equal the response with the marker tokens and the
whitespace around each section removed. -/
theorem segmentation_reconstruction_normalized
    (r a b c d e : List Char)
    (hr : r = a ++ mT ++ b ++ mF ++ c ++ mQ ++ d ++ mE ++ e)
    (hnorm : normalizeHeadings r = r)
    (hTa : containsSub mT (a ++ List.take (mT.length - 1) mT) = false)
    (hTb : containsSub mT b = false)
    (hF : containsSub mF ((a ++ mT ++ b) ++ List.take (mF.length - 1) mF) = false)
    (hQ : containsSub mQ (c ++ List.take (mQ.length - 1) mQ) = false)
    (hE : containsSub mE (d ++ List.take (mE.length - 1) mE) = false) :
    joinFields (segmentResponse r) = specReassembly r := by
  subst hr
  have assocF : a ++ mT ++ b ++ mF ++ c ++ mQ ++ d ++ mE ++ e =
      (a ++ mT ++ b) ++ (mF ++ (c ++ mQ ++ d ++ mE ++ e)) := by
    simp [List.append_assoc]
  have assocF' : a ++ mT ++ b ++ mF ++ c ++ mQ ++ d ++ mE ++ e =
      (a ++ mT ++ b) ++ mF ++ (c ++ mQ ++ d ++ mE ++ e) := by
    simp [List.append_assoc]
  have assocT : a ++ mT ++ b ++ mF ++ c ++ mQ ++ d ++ mE ++ e =
      a ++ (mT ++ (b ++ mF ++ c ++ mQ ++ d ++ mE ++ e)) := by
    simp [List.append_assoc]
  have assocQ : c ++ mQ ++ d ++ mE ++ e = c ++ (mQ ++ (d ++ mE ++ e)) := by
    simp [List.append_assoc]
  have assocQ' : c ++ mQ ++ d ++ mE ++ e = c ++ mQ ++ (d ++ mE ++ e) := by
    simp [List.append_assoc]
  have assocE : d ++ mE ++ e = d ++ (mE ++ e) := by
    simp [List.append_assoc]
  have h_containsF :
      containsSub mF (a ++ mT ++ b ++ mF ++ c ++ mQ ++ d ++ mE ++ e) = true := by
    rw [assocF']; exact contains_decomp mF _ _ (by decide)
  have h_splitF :
      splitFirst mF (a ++ mT ++ b ++ mF ++ c ++ mQ ++ d ++ mE ++ e) =
        (a ++ mT ++ b, c ++ mQ ++ d ++ mE ++ e) := by
    rw [assocF]; exact splitFirst_decomp mF _ _ (by decide) hF
  have h_repl : replaceAll mT [] (a ++ mT ++ b) = a ++ b := by
    rw [List.append_assoc, replaceAll_decomp mT [] a b (by decide) hTa,
      replaceAll_not_contains mT [] b hTb]
    simp
  have h_containsQ : containsSub mQ (c ++ mQ ++ d ++ mE ++ e) = true := by
    rw [assocQ']; exact contains_decomp mQ _ _ (by decide)
  have h_splitQ : splitFirst mQ (c ++ mQ ++ d ++ mE ++ e) = (c, d ++ mE ++ e) := by
    rw [assocQ]; exact splitFirst_decomp mQ _ _ (by decide) hQ
  have h_containsE : containsSub mE (d ++ mE ++ e) = true :=
    contains_decomp mE d e (by decide)
  have h_splitE : splitFirst mE (d ++ mE ++ e) = (d, e) := by
    rw [assocE]; exact splitFirst_decomp mE _ _ (by decide) hE
  have hFb : containsSub mF (b ++ List.take (mF.length - 1) mF) = false := by
    by_contra hcon
    rw [Bool.not_eq_false] at hcon
    have h2 := contains_append_right mF (a ++ mT) (b ++ List.take (mF.length - 1) mF) hcon
    rw [show (a ++ mT) ++ (b ++ List.take (mF.length - 1) mF) =
        (a ++ mT ++ b) ++ List.take (mF.length - 1) mF by simp [List.append_assoc]] at h2
    rw [h2] at hF
    exact Bool.noConfusion hF
  have assocT2 : b ++ mF ++ c ++ mQ ++ d ++ mE ++ e =
      b ++ (mF ++ (c ++ mQ ++ d ++ mE ++ e)) := by
    simp [List.append_assoc]
  have h_splitT :
      splitFirst mT (a ++ mT ++ b ++ mF ++ c ++ mQ ++ d ++ mE ++ e) =
        (a, b ++ mF ++ c ++ mQ ++ d ++ mE ++ e) := by
    rw [assocT]
    exact splitFirst_decomp mT a (b ++ mF ++ c ++ mQ ++ d ++ mE ++ e) (by decide) hTa
  have h_splitF2 :
      splitFirst mF (b ++ mF ++ c ++ mQ ++ d ++ mE ++ e) =
        (b, c ++ mQ ++ d ++ mE ++ e) := by
    rw [assocT2]
    exact splitFirst_decomp mF b (c ++ mQ ++ d ++ mE ++ e) (by decide) hFb
  have hseg : segmentResponse (a ++ mT ++ b ++ mF ++ c ++ mQ ++ d ++ mE ++ e) =
      ⟨strip (a ++ b), strip c, strip d, strip e⟩ := by
    simp only [segmentResponse, hnorm, h_containsF, eq_self_iff_true, if_true, h_splitF]
    simp only [h_repl, h_containsQ, h_splitQ, h_containsE, h_splitE, eq_self_iff_true,
      if_true]
  have hspec : specReassembly (a ++ mT ++ b ++ mF ++ c ++ mQ ++ d ++ mE ++ e) =
      strip (a ++ b) ++ sep1 ++ strip c ++ sep1 ++ strip d ++ sep1 ++ strip e := by
    simp only [specReassembly, h_splitT, h_splitF2, h_splitQ, h_splitE]
  rw [hseg, hspec]
  rfl

/-- Witness for C1's amended law at a concrete well-formed response. -/
theorem segmentation_reconstruction_normalized_witness :
    joinFields (segmentResponse
        ([] ++ mT ++ "\nHello\n".data ++ mF ++ "\nCard\n".data ++ mQ ++
          "\nBank\n".data ++ mE ++ "\nFinal".data)) =
      specReassembly
        ([] ++ mT ++ "\nHello\n".data ++ mF ++ "\nCard\n".data ++ mQ ++
          "\nBank\n".data ++ mE ++ "\nFinal".data) :=
  segmentation_reconstruction_normalized _ [] "\nHello\n".data "\nCard\n".data
    "\nBank\n".data "\nFinal".data rfl (by decide) (by decide) (by decide) (by decide)
    (by decide) (by decide)

/-- C10 counterexample: a response whose pre-marker text mentions
`PRAACHI-GUIDE TEXTBOOK`, yet the returned textbook field still contains
that token: the single left-to-right replacement pass deletes the
occurrence but never rescans, so its flanks splice into a new
occurrence. -/
theorem textbook_replace_absence_cex :
    containsSub mF (normalizeHeadings c10CexRaw) = true ∧
    containsSub mT (splitFirst mF (normalizeHeadings c10CexRaw)).1 = true ∧
    containsSub mT (segmentResponse c10CexRaw).textbook = true := by
  exact ⟨by decide, by decide, by decide⟩

/-- C10 (amended): the segmenter deletes an occurrence of
`PRAACHI-GUIDE TEXTBOOK` found anywhere in the pre-marker text — not
only a token at the very start: for every response of the form
`x ++ mT ++ y ++ mF ++ z` (with no marker occurrence hiding in `x` or
`y` and untouched by normalization), the textbook field is the stripped
concatenation of the surrounding text `x ++ y` with the token gone.
Because the pass never rescans, `x ++ y` itself — and hence the returned
field — may still spell out a fresh occurrence of the token. -/
theorem textbook_replace_all_occurrences (x y z : List Char)
    (hnorm : normalizeHeadings (x ++ mT ++ y ++ mF ++ z) = x ++ mT ++ y ++ mF ++ z)
    (hTx : containsSub mT (x ++ List.take (mT.length - 1) mT) = false)
    (hTy : containsSub mT y = false)
    (hF : containsSub mF ((x ++ mT ++ y) ++ List.take (mF.length - 1) mF) = false) :
    (segmentResponse (x ++ mT ++ y ++ mF ++ z)).textbook = strip (x ++ y) := by
  have assocF : x ++ mT ++ y ++ mF ++ z = (x ++ mT ++ y) ++ (mF ++ z) := by
    simp [List.append_assoc]
  have assocF' : x ++ mT ++ y ++ mF ++ z = (x ++ mT ++ y) ++ mF ++ z := by
    simp [List.append_assoc]
  have h_containsF : containsSub mF (x ++ mT ++ y ++ mF ++ z) = true := by
    rw [assocF']; exact contains_decomp mF _ _ (by decide)
  have h_splitF : splitFirst mF (x ++ mT ++ y ++ mF ++ z) = (x ++ mT ++ y, z) := by
    rw [assocF]; exact splitFirst_decomp mF _ _ (by decide) hF
  have h_repl : replaceAll mT [] (x ++ mT ++ y) = x ++ y := by
    rw [List.append_assoc, replaceAll_decomp mT [] x y (by decide) hTx,
      replaceAll_not_contains mT [] y hTy]
    simp
  simp only [segmentResponse, hnorm, h_containsF, eq_self_iff_true, if_true, h_splitF,
    h_repl]

/-- Witness for C10's amended statement: the token occurrence sits in
the middle of the pre-marker text, flanked by `"A "` and `" B"`, and is
removed. -/
theorem textbook_replace_all_occurrences_witness :
    (segmentResponse ("A ".data ++ mT ++ " B".data ++ mF ++ "tail".data)).textbook =
      strip ("A ".data ++ " B".data) :=
  textbook_replace_all_occurrences "A ".data " B".data "tail".data (by decide)
    (by decide) (by decide) (by decide)

/- ------------------------------------------------------------------ -/
/- Extraction dispatch and failure policy. -/

theorem begins_agree (p₁ : List Char) :
    ∀ (p₂ s : List Char), beginsWith p₁ s = true → beginsWith p₂ s = true →
      p₁.length ≤ p₂.length → beginsWith p₁ p₂ = true := by
  induction p₁ with
  | nil => intro p₂ s _ _ _; rfl
  | cons a t₁ ih =>
    intro p₂ s h1 h2 hlen
    cases s with
    | nil => simp [beginsWith] at h1
    | cons c st =>
      cases p₂ with
      | nil => simp at hlen
      | cons b t₂ =>
        simp only [beginsWith, Bool.and_eq_true, beq_iff_eq] at h1 h2 ⊢
        refine ⟨h1.1.trans h2.1.symm, ih t₂ st h1.2 h2.2 ?_⟩
        simpa using hlen

theorem extractAll_none (files : List FileModel) (f : FileModel)
    (hmem : f ∈ files) (hf : extract_text f = none) : extractAll files = none := by
  induction files with
  | nil => cases hmem
  | cons g fs ih =>
    rcases List.mem_cons.mp hmem with h | h
    · subst h; simp [extractAll, hf]
    · cases hg : extract_text g with
      | none => simp [extractAll, hg]
      | some t => simp [extractAll, hg, ih h]

/-- C4 counterexample: a `.pdf` document the PDF parser cannot read does
not yield an empty string — the exception escapes `extract_text`. -/
theorem extractor_failure_policy_cex :
    endsWithSub pdfSuffix fBadPdf.name = true ∧ fBadPdf.pdfPages = none ∧
    extract_text fBadPdf ≠ some [] ∧ extract_text fBadPdf = none := by
  exact ⟨by decide, rfl, by decide, by decide⟩

/-- C4 (amended): only the plain-text fallback absorbs failures.  A
`.pdf`, `.docx` or `.pptx` document whose parse raises propagates the
error out of `extract_text`; a document routed to the fallback always
yields a text — the empty string when even reading it fails — and one
failing document of a declared format aborts the whole `generate_all`
batch. -/
theorem extractor_failure_policy :
    (∀ f : FileModel, endsWithSub pdfSuffix f.name = true → f.pdfPages = none →
      extract_text f = none) ∧
    (∀ f : FileModel, endsWithSub docxSuffix f.name = true → f.docxParas = none →
      extract_text f = none) ∧
    (∀ f : FileModel, endsWithSub pptxSuffix f.name = true → f.pptxSlides = none →
      extract_text f = none) ∧
    (∀ f : FileModel, endsWithSub pdfSuffix f.name = false →
      endsWithSub docxSuffix f.name = false → endsWithSub pptxSuffix f.name = false →
      f.readBytes = none → extract_text f = some []) ∧
    (∀ f : FileModel, endsWithSub pdfSuffix f.name = false →
      endsWithSub docxSuffix f.name = false → endsWithSub pptxSuffix f.name = false →
      ∃ t, extract_text f = some t) ∧
    (∀ (files : List FileModel) (subject instr : List Char) (gw : List Char → List Char)
      (f : FileModel), f ∈ files → extract_text f = none →
      generate_all files subject instr gw = none) := by
  refine ⟨?_, ?_, ?_, ?_, ?_, ?_⟩
  · intro f h1 h2
    simp [extract_text, h1, pdf_extract, h2]
  · intro f h hparse
    have hpdf : endsWithSub pdfSuffix f.name = false := by
      by_contra hcon
      rw [Bool.not_eq_false] at hcon
      have := begins_agree pdfSuffix.reverse docxSuffix.reverse f.name.reverse hcon h
        (by decide)
      exact absurd this (by decide)
    simp [extract_text, hpdf, h, docx_extract, hparse]
  · intro f h hparse
    have hpdf : endsWithSub pdfSuffix f.name = false := by
      by_contra hcon
      rw [Bool.not_eq_false] at hcon
      have := begins_agree pdfSuffix.reverse pptxSuffix.reverse f.name.reverse hcon h
        (by decide)
      exact absurd this (by decide)
    have hdocx : endsWithSub docxSuffix f.name = false := by
      by_contra hcon
      rw [Bool.not_eq_false] at hcon
      have := begins_agree docxSuffix.reverse pptxSuffix.reverse f.name.reverse hcon h
        (by decide)
      exact absurd this (by decide)
    simp [extract_text, hpdf, hdocx, h, pptx_extract, hparse]
  · intro f h1 h2 h3 hrb
    simp [extract_text, h1, h2, h3, fallback_extract, hrb]
  · intro f h1 h2 h3
    have hfb : extract_text f = fallback_extract f := by simp [extract_text, h1, h2, h3]
    rw [hfb]
    exact ⟨_, rfl⟩
  · intro files subject instr gw f hmem hf
    cases files with
    | nil => cases hmem
    | cons g fs =>
      simp [generate_all, extractAll_none (g :: fs) f hmem hf]

/-- Witness for C4's amended statement: unreadable `.pdf`, `.docx` and
`.pptx` documents each propagate `none` (and the `.pdf` one kills a
one-document batch), a plain-text document whose read fails yields the
empty string, and a readable plain-text document always extracts. -/
theorem extractor_failure_policy_witness :
    extract_text fBadPdf = none ∧ extract_text fBadDocx = none ∧
    extract_text fBadPptx = none ∧ extract_text fNoRead = some [] ∧
    (∃ t, extract_text fC6 = some t) ∧
    generate_all [fBadPdf] [] [] (fun _ => []) = none :=
  ⟨extractor_failure_policy.1 fBadPdf (by decide) rfl,
   extractor_failure_policy.2.1 fBadDocx (by decide) rfl,
   extractor_failure_policy.2.2.1 fBadPptx (by decide) rfl,
   extractor_failure_policy.2.2.2.1 fNoRead (by decide) (by decide) (by decide) rfl,
   extractor_failure_policy.2.2.2.2.1 fC6 (by decide) (by decide) (by decide),
   extractor_failure_policy.2.2.2.2.2 [fBadPdf] [] [] (fun _ => []) fBadPdf (by simp)
     (extractor_failure_policy.1 fBadPdf (by decide) rfl)⟩

/-- C5 counterexample: a file named `A.PDF` has the `.pdf` extension up
to letter case, yet `extract_text` does not select the PDF extractor —
`endswith` is case-sensitive, so the file falls through to the
plain-text fallback. -/
theorem extension_dispatch_cex :
    endsWithSub pdfSuffix (fUpperPdf.name.map Char.toLower) = true ∧
    extract_text fUpperPdf ≠ pdf_extract fUpperPdf ∧
    extract_text fUpperPdf = fallback_extract fUpperPdf := by
  exact ⟨by decide, by decide, by decide⟩

/-- C5 (amended): dispatch is determined solely by the filename suffix,
case-sensitively: the exact lower-case suffixes `.pdf`/`.docx`/`.pptx`
select their extractors and every other name — upper-case variants
included — selects the plain-text fallback. -/
theorem extension_dispatch_case_sensitive (f : FileModel) :
    (endsWithSub pdfSuffix f.name = true → extract_text f = pdf_extract f) ∧
    (endsWithSub docxSuffix f.name = true → extract_text f = docx_extract f) ∧
    (endsWithSub pptxSuffix f.name = true → extract_text f = pptx_extract f) ∧
    (endsWithSub pdfSuffix f.name = false → endsWithSub docxSuffix f.name = false →
      endsWithSub pptxSuffix f.name = false → extract_text f = fallback_extract f) := by
  refine ⟨?_, ?_, ?_, ?_⟩
  · intro h
    simp [extract_text, h]
  · intro h
    have hpdf : endsWithSub pdfSuffix f.name = false := by
      by_contra hcon
      rw [Bool.not_eq_false] at hcon
      have := begins_agree pdfSuffix.reverse docxSuffix.reverse f.name.reverse hcon h
        (by decide)
      exact absurd this (by decide)
    simp [extract_text, hpdf, h]
  · intro h
    have hpdf : endsWithSub pdfSuffix f.name = false := by
      by_contra hcon
      rw [Bool.not_eq_false] at hcon
      have := begins_agree pdfSuffix.reverse pptxSuffix.reverse f.name.reverse hcon h
        (by decide)
      exact absurd this (by decide)
    have hdocx : endsWithSub docxSuffix f.name = false := by
      by_contra hcon
      rw [Bool.not_eq_false] at hcon
      have := begins_agree docxSuffix.reverse pptxSuffix.reverse f.name.reverse hcon h
        (by decide)
      exact absurd this (by decide)
    simp [extract_text, hpdf, hdocx, h]
  · intro h1 h2 h3
    simp [extract_text, h1, h2, h3]

/-- Witness for C5's amended statement at two concrete files. -/
theorem extension_dispatch_case_sensitive_witness :
    extract_text fBadPdf = pdf_extract fBadPdf ∧
    extract_text fUpperPdf = fallback_extract fUpperPdf :=
  ⟨(extension_dispatch_case_sensitive fBadPdf).1 (by decide),
   (extension_dispatch_case_sensitive fUpperPdf).2.2.2 (by decide) (by decide) (by decide)⟩

theorem utf8F_ascii : ∀ (fl : Nat) (bs : List Nat), bs.length ≤ fl →
    (∀ b ∈ bs, b < 128) → utf8F fl bs = bs.map Char.ofNat := by
  intro fl
  induction fl with
  | zero =>
    intro bs h1 _
    rw [List.length_eq_zero.mp (Nat.le_zero.mp h1)]
    rfl
  | succ fl ih =>
    intro bs h1 h2
    cases bs with
    | nil => rfl
    | cons b rest =>
      have hb : b < 128 := h2 b (List.mem_cons_self b rest)
      simp only [utf8F, hb, if_true, List.map_cons]
      congr 1
      exact ih rest (by simpa using h1) fun x hx => h2 x (List.mem_cons_of_mem b hx)

/-- C6 counterexample: on the bytes `A, 0xFF, B` of a plain-text upload
the code's decode yields `"AB"` — the invalid byte is dropped, not
replaced with U+FFFD as the spec's "replacing" policy would produce. -/
theorem fallback_decode_cex :
    extract_text fC6 = some (utf8DecodeIgnore [65, 255, 66]) ∧
    utf8DecodeIgnore [65, 255, 66] = ['A', 'B'] ∧
    extract_text fC6 ≠ some (specUtf8Replace [65, 255, 66]) := by
  exact ⟨by decide, by decide, by decide⟩

/-- C6 (amended): for every file with an unrecognized extension the
fallback decodes its bytes as UTF-8 dropping (ignoring) invalid byte
sequences and never raises — it always returns `some` text — and on
pure-ASCII bytes the decode is exact. -/
theorem fallback_decode_ignore :
    (∀ (f : FileModel) (bs : List Nat), endsWithSub pdfSuffix f.name = false →
      endsWithSub docxSuffix f.name = false → endsWithSub pptxSuffix f.name = false →
      f.readBytes = some bs → extract_text f = some (utf8DecodeIgnore bs)) ∧
    (∀ bs : List Nat, (∀ b ∈ bs, b < 128) → utf8DecodeIgnore bs = bs.map Char.ofNat) := by
  constructor
  · intro f bs h1 h2 h3 hbs
    simp [extract_text, h1, h2, h3, fallback_extract, hbs]
  · intro bs h
    exact utf8F_ascii bs.length bs (Nat.le_refl _) h

/-- Witness for C6's amended statement. -/
theorem fallback_decode_ignore_witness :
    extract_text fC6 = some (utf8DecodeIgnore [65, 255, 66]) ∧
    utf8DecodeIgnore [72, 105] = ['H', 'i'] :=
  ⟨fallback_decode_ignore.1 fC6 [65, 255, 66] (by decide) (by decide) (by decide) rfl,
   by rw [fallback_decode_ignore.2 [72, 105] (by decide)]; rfl⟩

/- ------------------------------------------------------------------ -/
/- Positional analysis of `replaceAll`, for the normalization claim. -/

theorem charAt_cons_succ (c : Char) (t : List Char) (k : Nat) :
    charAt (c :: t) (k + 1) = charAt t k := rfl

theorem charAt_append (x y : List Char) (k : Nat) :
    charAt (x ++ y) (x.length + k) = charAt y k := by
  induction x with
  | nil => simp
  | cons c x' ih =>
    rw [List.cons_append, show (c :: x').length + k = (x'.length + k) + 1 by
      simp [Nat.succ_add], charAt_cons_succ, ih]

theorem charAt_append_lt (x y : List Char) (k : Nat) (hk : k < x.length) :
    charAt (x ++ y) k = charAt x k := by
  induction x generalizing k with
  | nil => simp at hk
  | cons c x' ih =>
    cases k with
    | zero => rfl
    | succ k' =>
      rw [List.cons_append, charAt_cons_succ, charAt_cons_succ]
      exact ih k' (by simpa using hk)

theorem sliceEq_of_append (u r : List Char) : sliceEq (u ++ r) 0 u := by
  intro k hk
  rw [Nat.zero_add, charAt_append_lt u r k hk]

theorem sliceEq_shift (x s : List Char) (j : Nat) (u : List Char) (h : sliceEq s j u) :
    sliceEq (x ++ s) (x.length + j) u := by
  intro k hk
  rw [Nat.add_assoc, charAt_append]
  exact h k hk

theorem sliceEq_cons (c : Char) (s : List Char) (j : Nat) (u : List Char)
    (h : sliceEq s j u) : sliceEq (c :: s) (j + 1) u := by
  intro k hk
  rw [show j + 1 + k = (j + k) + 1 by omega, charAt_cons_succ]
  exact h k hk

/-- Each position of `s.replace(p, q)` (for `p`, `q` of equal length)
either carries the character `s` has there, or lies inside a replaced
block: an occurrence of `p` in `s` overwritten with `q` in the result. -/
theorem replaceAllF_pos (p q : List Char) (hp : p ≠ []) (hl : p.length = q.length) :
    ∀ (f : Nat) (s : List Char), s.length ≤ f →
      (replaceAllF p q f s).length = s.length ∧
      (∀ i : Nat, charAt (replaceAllF p q f s) i = charAt s i ∨
        ∃ j, j ≤ i ∧ i < j + p.length ∧ sliceEq s j p ∧
          sliceEq (replaceAllF p q f s) j q) := by
  intro f
  induction f with
  | zero =>
    intro s h1
    rw [List.length_eq_zero.mp (Nat.le_zero.mp h1)]
    exact ⟨rfl, fun i => Or.inl rfl⟩
  | succ f ih =>
    intro s h1
    cases s with
    | nil => exact ⟨rfl, fun i => Or.inl rfl⟩
    | cons c t =>
      simp only [List.length_cons] at h1
      by_cases hb : beginsWith p (c :: t) = true
      · obtain ⟨r0, hr0⟩ := (begins_iff p (c :: t)).mp hb
        have hp1 : 0 < p.length := List.length_pos.mpr hp
        have hdrop : List.drop (p.length - 1) t = r0 := by
          cases p with
          | nil => exact absurd rfl hp
          | cons a p' =>
            rw [List.cons_append] at hr0
            injection hr0 with h_head h_tail
            rw [h_tail]
            simp [List.drop_left]
        have heq : replaceAllF p q (f + 1) (c :: t) = q ++ replaceAllF p q f r0 := by
          simp only [replaceAllF, hb, if_true, hdrop]
        have hr0len : r0.length ≤ f := by
          have hlen := congrArg List.length hr0
          simp only [List.length_cons, List.length_append] at hlen
          omega
        obtain ⟨ihlen, ihpos⟩ := ih r0 hr0len
        have hslen : (c :: t).length = p.length + r0.length := by
          rw [hr0, List.length_append]
        constructor
        · rw [heq, List.length_append, ihlen, hslen, hl]
        · intro i
          by_cases hip : i < p.length
          · refine Or.inr ⟨0, Nat.zero_le i, by omega, ?_, ?_⟩
            · rw [hr0]; exact sliceEq_of_append p r0
            · rw [heq]; exact sliceEq_of_append q _
          · push_neg at hip
            have hlhs : charAt (replaceAllF p q (f + 1) (c :: t)) i =
                charAt (replaceAllF p q f r0) (i - p.length) := by
              rw [heq]
              calc charAt (q ++ replaceAllF p q f r0) i
                  = charAt (q ++ replaceAllF p q f r0) (q.length + (i - p.length)) := by
                    rw [show q.length + (i - p.length) = i by omega]
                _ = charAt (replaceAllF p q f r0) (i - p.length) := charAt_append _ _ _
            have hrhs : charAt (c :: t) i = charAt r0 (i - p.length) := by
              rw [hr0]
              calc charAt (p ++ r0) i
                  = charAt (p ++ r0) (p.length + (i - p.length)) := by
                    rw [show p.length + (i - p.length) = i by omega]
                _ = charAt r0 (i - p.length) := charAt_append _ _ _
            rcases ihpos (i - p.length) with hcase | ⟨j, hj1, hj2, hsl1, hsl2⟩
            · left; rw [hlhs, hrhs, hcase]
            · right
              refine ⟨p.length + j, by omega, by omega, ?_, ?_⟩
              · rw [hr0]; exact sliceEq_shift p r0 j p hsl1
              · rw [heq, hl]; exact sliceEq_shift q _ j q hsl2
      · rw [Bool.not_eq_true] at hb
        have heq : replaceAllF p q (f + 1) (c :: t) = c :: replaceAllF p q f t := by
          simp only [replaceAllF, hb, Bool.false_eq_true, if_false]
        obtain ⟨ihlen, ihpos⟩ := ih t (by omega)
        constructor
        · rw [heq]; simp [ihlen]
        · intro i
          cases i with
          | zero => left; rw [heq]; rfl
          | succ i' =>
            rcases ihpos i' with hcase | ⟨j, hj1, hj2, hsl1, hsl2⟩
            · left; rw [heq, charAt_cons_succ, charAt_cons_succ, hcase]
            · right
              exact ⟨j + 1, by omega, by omega, sliceEq_cons c t j p hsl1,
                by rw [heq]; exact sliceEq_cons c _ j q hsl2⟩

theorem replaceAll_pos (p q : List Char) (hp : p ≠ []) (hl : p.length = q.length)
    (s : List Char) :
    (replaceAll p q s).length = s.length ∧
    (∀ i : Nat, charAt (replaceAll p q s) i = charAt s i ∨
      ∃ j, j ≤ i ∧ i < j + p.length ∧ sliceEq s j p ∧ sliceEq (replaceAll p q s) j q) :=
  replaceAllF_pos p q hp hl s.length s (Nat.le_refl _)

theorem vQ_mF_char_disjoint :
    ∀ k, k < vQ.length → ∀ m, m < mF.length → charAt vQ k ≠ charAt mF m := by decide

theorem vE_mF_char_disjoint :
    ∀ k, k < vE.length → ∀ m, m < mF.length → charAt vE k ≠ charAt mF m := by decide

theorem vE_mQ_shift₁ :
    ∀ d, d < mQ.length →
      ¬ (∀ m, m < mQ.length - d → charAt vE (d + m) = charAt mQ m) := by decide

theorem vE_mQ_shift₂ :
    ∀ d, d < vE.length →
      ¬ (∀ m, m < vE.length - d → charAt mQ (d + m) = charAt vE m) := by decide

/-- An occurrence of `"Question Bank"` in the output of the first
normalization pass was already present in the input: the pass only
writes characters of `"FLASHCARDS"`, which never occur in the variant. -/
theorem slice_back_vQ (s : List Char) (j : Nat)
    (h : sliceEq (replaceAll vF mF s) j vQ) : sliceEq s j vQ := by
  intro k hk
  rcases (replaceAll_pos vF mF (by decide) (by decide) s).2 (j + k) with
    hcase | ⟨j', hj1, hj2, _, hsl2⟩
  · rw [← hcase]; exact h k hk
  · exfalso
    have hvF : vF.length = 10 := by decide
    have hmF : mF.length = 10 := by decide
    have hm : j + k - j' < mF.length := by omega
    have h2 := hsl2 (j + k - j') hm
    rw [show j' + (j + k - j') = j + k by omega] at h2
    have h3 := h k hk
    rw [h2] at h3
    exact vQ_mF_char_disjoint k hk (j + k - j') hm h3.symm

/-- An occurrence of `"Exam Template"` in the output of the first
normalization pass was already present in the input. -/
theorem slice_back_vE_step1 (s : List Char) (j : Nat)
    (h : sliceEq (replaceAll vF mF s) j vE) : sliceEq s j vE := by
  intro k hk
  rcases (replaceAll_pos vF mF (by decide) (by decide) s).2 (j + k) with
    hcase | ⟨j', hj1, hj2, _, hsl2⟩
  · rw [← hcase]; exact h k hk
  · exfalso
    have hvF : vF.length = 10 := by decide
    have hmF : mF.length = 10 := by decide
    have hm : j + k - j' < mF.length := by omega
    have h2 := hsl2 (j + k - j') hm
    rw [show j' + (j + k - j') = j + k by omega] at h2
    have h3 := h k hk
    rw [h2] at h3
    exact vE_mF_char_disjoint k hk (j + k - j') hm h3.symm

/-- An occurrence of `"Exam Template"` in the output of the second
normalization pass was already present in its input: no shifted overlap
of `"Exam Template"` with a written `"QUESTION BANK"` block is
character-compatible. -/
theorem slice_back_vE_step2 (t₁ : List Char) (j : Nat)
    (h : sliceEq (replaceAll vQ mQ t₁) j vE) : sliceEq t₁ j vE := by
  intro k hk
  rcases (replaceAll_pos vQ mQ (by decide) (by decide) t₁).2 (j + k) with
    hcase | ⟨j', hj1, hj2, _, hsl2⟩
  · rw [← hcase]; exact h k hk
  · exfalso
    have hvE : vE.length = 13 := by decide
    have hvQ : vQ.length = 13 := by decide
    have hmQ : mQ.length = 13 := by decide
    rcases le_or_lt j j' with hle | hlt
    · apply vE_mQ_shift₁ (j' - j) (by omega)
      intro m hm
      have h1 := h (j' - j + m) (by omega)
      have h2 := hsl2 m (by omega)
      rw [show j + (j' - j + m) = j' + m by omega] at h1
      exact h1.symm.trans h2
    · apply vE_mQ_shift₂ (j - j') (by omega)
      intro m hm
      have h1 := h m (by omega)
      have h2 := hsl2 (j - j' + m) (by omega)
      rw [show j' + (j - j' + m) = j + m by omega] at h2
      exact h2.symm.trans h1

/-- C3: heading normalization is length-preserving and changes a
character of the response only inside an occurrence (in the original
response) of one of the heading variants `"Flashcards"`,
`"Question Bank"`, `"Exam Template"` — every other character is left
unchanged. -/
theorem normalization_changes_only_heading_variants (s : List Char) (i : Nat) :
    (normalizeHeadings s).length = s.length ∧
    (charAt (normalizeHeadings s) i ≠ charAt s i →
      ∃ j u, (u = vF ∨ u = vQ ∨ u = vE) ∧ j ≤ i ∧ i < j + u.length ∧ sliceEq s j u) := by
  have p1 := replaceAll_pos vF mF (by decide) (by decide) s
  have p2 := replaceAll_pos vQ mQ (by decide) (by decide) (replaceAll vF mF s)
  have p3 := replaceAll_pos vE mE (by decide) (by decide)
    (replaceAll vQ mQ (replaceAll vF mF s))
  have hn : normalizeHeadings s =
      replaceAll vE mE (replaceAll vQ mQ (replaceAll vF mF s)) := rfl
  constructor
  · rw [hn, p3.1, p2.1, p1.1]
  · intro hne
    rcases p3.2 i with hc3 | ⟨j, hj1, hj2, hsl1, _⟩
    · rcases p2.2 i with hc2 | ⟨j, hj1, hj2, hsl1, _⟩
      · rcases p1.2 i with hc1 | ⟨j, hj1, hj2, hsl1, _⟩
        · exact absurd (by rw [hn, hc3, hc2, hc1]) hne
        · exact ⟨j, vF, Or.inl rfl, hj1, hj2, hsl1⟩
      · exact ⟨j, vQ, Or.inr (Or.inl rfl), hj1, hj2, slice_back_vQ s j hsl1⟩
    · exact ⟨j, vE, Or.inr (Or.inr rfl), hj1, hj2,
        slice_back_vE_step1 s j (slice_back_vE_step2 (replaceAll vF mF s) j hsl1)⟩

/-- Witness for C3 at the input `"Flashcards"`, whose second character
is upper-cased by normalization. -/
theorem normalization_changes_only_heading_variants_witness :
    ∃ j u, (u = vF ∨ u = vQ ∨ u = vE) ∧ j ≤ 1 ∧ 1 < j + u.length ∧
      sliceEq "Flashcards".data j u :=
  (normalization_changes_only_heading_variants "Flashcards".data 1).2 (by decide)
